import Mathlib

/-!
# Verification of `hermannm/enumnames`

A shallow embedding, in Lean 4, of the Go package `enumnames`
(file `enumnames.go`), together with theorems checking the package's
natural-language specification against the code.

Go's fixed-width integer types are modelled by a descriptor `IntTy`
(signedness and bit width); values of such a type are represented as
mathematical integers in the canonical range of the type, and every
arithmetic operation and conversion wraps its result exactly as Go's
two's-complement machine arithmetic does.  Go strings are modelled as
Lean `String`s, Go slices of strings as `List String`, and the input
`map[Enum]string` of `NewMap` as an association list carrying the
(nondeterministic) iteration order of the Go map; statements therefore
quantify over that order where it matters.  A Go panic is modelled by
an `Except` error result.
-/

namespace Enumnames

/-- Descriptor of a Go fixed-width integer type (`int8` ... `uint64`).
Go's `int` and `uint` are 64 bits wide on the platforms this package
targets. -/
structure IntTy where
  signed : Bool
  bits : Nat
  bits_pos : 0 < bits
  bits_le : bits ≤ 64

/-- Number of values of the type: `2 ^ bits`. -/
def IntTy.card (t : IntTy) : Int := (2 : Int) ^ t.bits

/-- Smallest value of the type: `-2^(bits-1)` if signed, `0` if unsigned. -/
def IntTy.minVal (t : IntTy) : Int :=
  if t.signed then -((2 : Int) ^ (t.bits - 1)) else 0

/-- Largest value of the type. -/
def IntTy.maxVal (t : IntTy) : Int := t.minVal + t.card - 1

/-- Reduce an integer to the canonical range of the type, exactly as Go's
wrapping two's-complement arithmetic does. -/
def IntTy.wrap (t : IntTy) (x : Int) : Int := (x - t.minVal) % t.card + t.minVal

/-- A Go conversion `T(x)` between integer types truncates to the target
width, i.e. wraps. -/
def IntTy.ofInt (t : IntTy) (x : Int) : Int := t.wrap x

/-- The Go type `int8`. -/
def int8T : IntTy := ⟨true, 8, by decide, by decide⟩

/-- The Go type `uint8`. -/
def uint8T : IntTy := ⟨false, 8, by decide, by decide⟩

/-- The Go type `int` (64-bit signed). -/
def int64T : IntTy := ⟨true, 64, by decide, by decide⟩

/-- The Go conversion `int(x)` to the 64-bit signed `int` type. -/
def goInt (x : Int) : Int := int64T.wrap x

/-- The struct `Map[Enum]` of `enumnames.go`:
```go
type Map[Enum IntegerEnum] struct {
    names     []string
    lowestKey Enum
}
``` -/
structure EnumMap where
  names : List String
  lowestKey : Int
deriving DecidableEq

/-- The two explicit panics of `NewMap`, plus the Go runtime panic raised
by the slice write `enumMap.names[index] = name` when `index` is outside
the slice bounds (reachable only for extreme unsigned key ranges, where
`int(index)` is negative while `index` itself exceeds the slice length). -/
inductive NewMapPanic where
  | nonContiguous : NewMapPanic
  | duplicateName (name : String) : NewMapPanic
  | indexOutOfRange : NewMapPanic
deriving DecidableEq

/-- The `lowestKey` computation at the top of `NewMap`:
```go
var lowestKey Enum
first := true
for key := range enumNames {
    if first || key < lowestKey {
        lowestKey = key
        first = false
    }
}
```
The fold state is `(lowestKey, first)`; `lowestStep` is one iteration of
the loop. -/
def lowestStep (acc : Int × Bool) (e : Int × String) : Int × Bool :=
  if acc.2 || decide (e.1 < acc.1) then (e.1, false) else acc

/-- The value of `lowestKey` after the first loop of `NewMap` (see
`lowestStep`): the minimum key of the table, or the zero value of the key
type for an empty table. -/
def computeLowest (es : List (Int × String)) : Int :=
  (es.foldl lowestStep ((0 : Int), true)).1

/-- The construction loop of `NewMap`:
```go
for key, name := range enumNames {
    index := enumMap.keyToIndex(key)
    if int(index) >= size {
        panic("non-contiguous enum keys given to enumnames.NewMap")
    }
    if slices.Contains(enumMap.names, name) {
        panic(fmt.Sprintf("duplicate enum name '%s' given to enumnames.NewMap", name))
    }
    enumMap.names[index] = name
}
```
`keyToIndex` is the wrapping subtraction `key - lowestKey` at the key
type; the slice write panics at runtime when `index` is outside
`[0, len(names))`. -/
def newMapLoop (t : IntTy) (size : Nat) (lowestKey : Int) :
    List (Int × String) → List String → Except NewMapPanic (List String)
  | [], names => .ok names
  | (key, name) :: rest, names =>
    let index := t.wrap (key - lowestKey)
    if (size : Int) ≤ goInt index then .error .nonContiguous
    else if name ∈ names then .error (.duplicateName name)
    else if index < 0 ∨ (names.length : Int) ≤ index then .error .indexOutOfRange
    else newMapLoop t size lowestKey rest (names.set index.toNat name)

/-- `NewMap` of `enumnames.go`, over the iteration order `es` of the input
Go map (whose keys are distinct values of the key type).  A Go panic is
modelled as an `Except.error`. -/
def NewMap (t : IntTy) (es : List (Int × String)) : Except NewMapPanic EnumMap :=
  (newMapLoop t es.length (computeLowest es) es
      (List.replicate es.length "")).map
    (fun names => ⟨names, computeLowest es⟩)

/-- `keyToIndex`: the wrapping subtraction `key - enumMap.lowestKey` at the
key type. -/
def keyToIndex (t : IntTy) (m : EnumMap) (key : Int) : Int :=
  t.wrap (key - m.lowestKey)

/-- `ContainsKey` of `enumnames.go`:
```go
return key >= enumMap.lowestKey &&
    key < Enum(len(enumMap.names))+enumMap.lowestKey
```
`Enum(len(...))` is a wrapping conversion and `+` wraps at the key type. -/
def ContainsKey (t : IntTy) (m : EnumMap) (key : Int) : Bool :=
  decide (m.lowestKey ≤ key) &&
    decide (key < t.wrap (t.ofInt m.names.length + m.lowestKey))

/-- `GetName` of `enumnames.go`.  The array read `enumMap.names[index]` is
modelled with `List.getD`; whenever `ContainsKey` holds for a map built by
`NewMap` the index is inside the list, so the default is never taken. -/
def GetName (t : IntTy) (m : EnumMap) (key : Int) : String × Bool :=
  if ContainsKey t m key then
    (m.names.getD (keyToIndex t m key).toNat "", true)
  else ("", false)

/-- The scan inside `GetKey`:
```go
for i, candidate := range enumMap.names {
    if candidate == name {
        return enumMap.indexToKey(i), true
    }
}
return 0, false
```
`indexToKey(i)` is `Enum(index) + lowestKey`, i.e. a wrapping conversion
followed by a wrapping addition. -/
def getKeyLoop (t : IntTy) (lowestKey : Int) (name : String) :
    Nat → List String → Int × Bool
  | _, [] => (0, false)
  | i, candidate :: rest =>
    if candidate = name then (t.wrap (t.ofInt i + lowestKey), true)
    else getKeyLoop t lowestKey name (i + 1) rest

/-- `GetKey` of `enumnames.go`. -/
def GetKey (t : IntTy) (m : EnumMap) (name : String) : Int × Bool :=
  getKeyLoop t m.lowestKey name 0 m.names

/-- The body of the `String` loop: for each entry it writes
`strconv.Itoa(i+lowestKey)`, `':'`, the name, and a space unless the entry
is the last one.  `i + lowestKey` is 64-bit `int` addition. -/
def stringEntryList (lowestInt : Int) : Nat → List String → String
  | _, [] => ""
  | i, name :: rest =>
    toString (int64T.wrap ((i : Int) + lowestInt)) ++ ":" ++ name ++
      (if rest.isEmpty then "" else " ") ++ stringEntryList lowestInt (i + 1) rest

/-- `String` of `enumnames.go`: `"enumnames.Map["` followed by the
space-separated `key:name` entries and `"]"`.  `int(enumMap.lowestKey)` is
the conversion to 64-bit `int`. -/
def MapString (m : EnumMap) : String :=
  "enumnames.Map[" ++ stringEntryList (goInt m.lowestKey) 0 m.names ++ "]"

/-- Escaping of one character inside a JSON string literal, as produced by
`encoding/json.Marshal` for a Go string (quotes and backslashes are
escaped; common control characters use their short escapes). -/
def escapeJSONChar (c : Char) : List Char :=
  if c = '"' then ['\\', '"']
  else if c = '\\' then ['\\', '\\']
  else if c = '\n' then ['\\', 'n']
  else if c = '\t' then ['\\', 't']
  else if c = '\r' then ['\\', 'r']
  else [c]

/-- `encoding/json.Marshal` applied to a Go string: the double-quoted,
escaped JSON string literal. -/
def encodeJSONString (s : String) : String :=
  String.mk ('"' :: s.data.foldr (fun c acc => escapeJSONChar c ++ acc) ['"'])

/-- Decoding of a single escaped character (after a backslash) in a JSON
string literal. -/
def unescapeJSONChar (c : Char) : Option Char :=
  if c = '"' then some '"'
  else if c = '\\' then some '\\'
  else if c = '/' then some '/'
  else if c = 'n' then some '\n'
  else if c = 't' then some '\t'
  else if c = 'r' then some '\r'
  else if c = 'b' then some (Char.ofNat 8)
  else if c = 'f' then some (Char.ofNat 12)
  else none

/-- Body of a JSON string literal after the opening quote: a run of
characters and escapes ended by a closing quote which must end the input. -/
def jsonStringBody : List Char → Option (List Char)
  | [] => none
  | '"' :: rest => if rest = [] then some [] else none
  | '\\' :: c :: rest => do
    let u ← unescapeJSONChar c
    let tail ← jsonStringBody rest
    pure (u :: tail)
  | c :: rest => do
    let tail ← jsonStringBody rest
    pure (c :: tail)

/-- `encoding/json.Unmarshal` of the given bytes into a Go string: the
input must be exactly one double-quoted JSON string literal. -/
def decodeJSONString (s : String) : Option String :=
  match s.data with
  | '"' :: rest => (jsonStringBody rest).map String.mk
  | _ => none

/-- `strings.Join(elems, sep)` of the Go standard library. -/
def goJoin (sep : String) : List String → String
  | [] => ""
  | [s] => s
  | s :: rest => s ++ (sep ++ goJoin sep rest)

/-- `MarshalToNameJSON` of `enumnames.go`:
```go
if name, ok := enumMap.GetName(key); ok {
    return json.Marshal(name)
} else {
    return nil, fmt.Errorf("invalid value '%d': key not found in enum name map", key)
}
``` -/
def MarshalToNameJSON (t : IntTy) (m : EnumMap) (key : Int) :
    Except String String :=
  let r := GetName t m key
  if r.2 then .ok (encodeJSONString r.1)
  else .error ("invalid value '" ++ toString key ++ "': key not found in enum name map")

/-- The error result of `UnmarshalFromNameJSON`: either the opaque error
returned by `json.Unmarshal` on malformed input, or the formatted
unknown-name error with its message. -/
inductive UnmarshalError where
  | parseError : UnmarshalError
  | badName (msg : String) : UnmarshalError
deriving DecidableEq

/-- `UnmarshalFromNameJSON` of `enumnames.go`:
```go
var name string
if err := json.Unmarshal(nameJSON, &name); err != nil {
    return err
}
if key, ok := enumMap.GetKey(name); ok {
    *dest = key
    return nil
} else {
    return fmt.Errorf(
        "invalid value '%s', expected one of: '%s'",
        name,
        strings.Join(enumMap.names, "', '"),
    )
}
```
The out-parameter `*dest` is modelled by explicit state passing: the
result pairs the returned error with the final value of `*dest`. -/
def UnmarshalFromNameJSON (t : IntTy) (m : EnumMap) (nameJSON : String)
    (dest : Int) : Option UnmarshalError × Int :=
  match decodeJSONString nameJSON with
  | none => (some .parseError, dest)
  | some name =>
    let r := GetKey t m name
    if r.2 then (none, r.1)
    else
      (some (.badName ("invalid value '" ++ name ++ "', expected one of: '" ++
        goJoin "', '" m.names ++ "'")), dest)

/-- The key set of an input table is contiguous when, for `n` entries with
minimum key `lo`, every key `lo`, `lo+1`, ..., `lo+n-1` occurs in the
table (with distinct keys this says the key set is exactly
`{lo, ..., lo+n-1}`). -/
def ContiguousKeys (es : List (Int × String)) : Prop :=
  ∀ i < es.length, (computeLowest es + (i : Int)) ∈ es.map Prod.fst

instance (es : List (Int × String)) : Decidable (ContiguousKeys es) := by
  unfold ContiguousKeys; infer_instance

/-- A one-entry `uint8` table whose key range ends at the top of the
`uint8` range (`255 + 1` wraps to `0`). -/
def topTableU8 : List (Int × String) := [(255, "A")]

/-- The map `NewMap` builds from `topTableU8`. -/
def topMapU8 : EnumMap := ⟨["A"], 255⟩

/-- A two-entry `uint8` table `{254: "A", 255: "B"}` ending at the top of
the `uint8` range. -/
def topTable2U8 : List (Int × String) := [(254, "A"), (255, "B")]

/-- The map `NewMap` builds from `topTable2U8`. -/
def topMap2U8 : EnumMap := ⟨["A", "B"], 254⟩

/-- The `int8` table `{-2: "FIRST", -1: "SECOND", 0: "THIRD"}` of the
negative-keys test. -/
def negTable : List (Int × String) := [(-2, "FIRST"), (-1, "SECOND"), (0, "THIRD")]

/-- The map `NewMap` builds from `negTable`. -/
def negMap : EnumMap := ⟨["FIRST", "SECOND", "THIRD"], -2⟩

/-- The `uint8` table `{1: "FIRST", 2: "SECOND", 3: "THIRD"}` of the
display-format test. -/
def displayTable : List (Int × String) := [(1, "FIRST"), (2, "SECOND"), (3, "THIRD")]

/-- The map `NewMap` builds from `displayTable`. -/
def displayMap : EnumMap := ⟨["FIRST", "SECOND", "THIRD"], 1⟩

/-! ## Arithmetic facts about wrapping fixed-width integers -/

theorem IntTy.card_pos (t : IntTy) : 0 < t.card :=
  pow_pos (by norm_num) _

theorem IntTy.card_eq_two_mul (t : IntTy) :
    t.card = 2 * (2 : Int) ^ (t.bits - 1) := by
  unfold IntTy.card
  conv_lhs => rw [(Nat.succ_pred_eq_of_pos t.bits_pos).symm]
  rw [pow_succ, Nat.pred_eq_sub_one]
  ring

theorem IntTy.minVal_nonpos (t : IntTy) : t.minVal ≤ 0 := by
  unfold IntTy.minVal
  split
  · exact neg_nonpos.mpr (pow_nonneg (by norm_num) _)
  · exact le_refl 0

theorem IntTy.maxVal_nonneg (t : IntTy) : 0 ≤ t.maxVal := by
  have hc := t.card_eq_two_mul
  have hp : (0 : Int) < 2 ^ (t.bits - 1) := pow_pos (by norm_num) _
  unfold IntTy.maxVal IntTy.minVal
  split
  · linarith
  · linarith

theorem IntTy.neg_card_le_minVal (t : IntTy) : -t.card ≤ t.minVal := by
  have hc := t.card_eq_two_mul
  have hp : (0 : Int) < 2 ^ (t.bits - 1) := pow_pos (by norm_num) _
  unfold IntTy.minVal
  split
  · linarith
  · linarith

theorem IntTy.minVal_le_wrap (t : IntTy) (x : Int) : t.minVal ≤ t.wrap x := by
  have h := Int.emod_nonneg (x - t.minVal) (ne_of_gt t.card_pos)
  unfold IntTy.wrap
  linarith

theorem IntTy.wrap_le_maxVal (t : IntTy) (x : Int) : t.wrap x ≤ t.maxVal := by
  have h := Int.emod_lt_of_pos (x - t.minVal) t.card_pos
  unfold IntTy.wrap IntTy.maxVal
  linarith

theorem IntTy.wrap_eq_self {t : IntTy} {x : Int} (h1 : t.minVal ≤ x)
    (h2 : x ≤ t.maxVal) : t.wrap x = x := by
  unfold IntTy.wrap
  have hm : x - t.minVal < t.card := by unfold IntTy.maxVal at h2; linarith
  rw [Int.emod_eq_of_lt (by linarith) hm]
  ring

theorem IntTy.wrap_add_left (t : IntTy) (a b : Int) :
    t.wrap (t.wrap a + b) = t.wrap (a + b) := by
  unfold IntTy.wrap
  have h : (a - t.minVal) % t.card + t.minVal + b - t.minVal
      = (a - t.minVal) % t.card + b := by ring
  rw [h, Int.emod_add_emod]
  have h2 : a - t.minVal + b = a + b - t.minVal := by ring
  rw [h2]

theorem IntTy.le_maxVal_of_wrap_eq {t : IntTy} {x : Int} (h : t.wrap x = x) :
    x ≤ t.maxVal := h ▸ t.wrap_le_maxVal x

theorem IntTy.minVal_le_of_wrap_eq {t : IntTy} {x : Int} (h : t.wrap x = x) :
    t.minVal ≤ x := h ▸ t.minVal_le_wrap x

theorem IntTy.wrap_inj {t : IntTy} {x y c : Int} (hx : t.wrap x = x)
    (hy : t.wrap y = y) (h : t.wrap (x - c) = t.wrap (y - c)) : x = y := by
  have hx1 := t.minVal_le_of_wrap_eq hx
  have hx2 := t.le_maxVal_of_wrap_eq hx
  have hy1 := t.minVal_le_of_wrap_eq hy
  have hy2 := t.le_maxVal_of_wrap_eq hy
  unfold IntTy.wrap at h
  have h2 : (x - c - t.minVal) % t.card = (y - c - t.minVal) % t.card := by omega
  have h3 : (x - c - t.minVal - (y - c - t.minVal)) % t.card = 0 :=
    Int.emod_eq_emod_iff_emod_sub_eq_zero.mp h2
  have h4 : (x - y) % t.card = 0 := by
    have : x - c - t.minVal - (y - c - t.minVal) = x - y := by ring
    rwa [this] at h3
  have h5 : t.card ∣ x - y := Int.dvd_of_emod_eq_zero h4
  have h6 : |x - y| < t.card := by
    rw [abs_lt]
    unfold IntTy.maxVal at hx2 hy2
    constructor <;> linarith
  have := Int.eq_zero_of_abs_lt_dvd h5 h6
  linarith

/-- The wrapped difference of two canonical values `lo ≤ key` of the type
is their exact difference, provided that difference does not exceed
`maxVal` (otherwise it wraps to a negative value). -/
theorem IntTy.wrap_sub_eq_of_le {t : IntTy} {lo key : Int}
    (hlo : t.wrap lo = lo) (hkey : t.wrap key = key) (h1 : lo ≤ key)
    (h2 : key - lo ≤ t.maxVal) : t.wrap (key - lo) = key - lo :=
  t.wrap_eq_self (le_trans t.minVal_nonpos (by linarith)) h2

/-- If the wrapped difference of canonical `lo ≤ key` is nonnegative, it is
the exact difference. -/
theorem IntTy.wrap_sub_eq_of_nonneg {t : IntTy} {lo key : Int}
    (hlo : t.wrap lo = lo) (hkey : t.wrap key = key) (h1 : lo ≤ key)
    (h2 : 0 ≤ t.wrap (key - lo)) : t.wrap (key - lo) = key - lo := by
  rcases le_or_lt (key - lo) t.maxVal with h | h
  · exact t.wrap_sub_eq_of_le hlo hkey h1 h
  · -- `key - lo` is in `(maxVal, card)`, so it wraps to a negative value,
    -- contradicting `h2`.
    exfalso
    have hk2 := t.le_maxVal_of_wrap_eq hkey
    have hl1 := t.minVal_le_of_wrap_eq hlo
    have hcard : key - lo < t.card := by unfold IntTy.maxVal at hk2; linarith
    have : t.wrap (key - lo) = key - lo - t.card := by
      unfold IntTy.wrap
      have he : key - lo - t.minVal = (key - lo - t.minVal - t.card) + t.card * 1 := by
        ring
      rw [he, Int.add_mul_emod_self_left]
      have hmc := t.neg_card_le_minVal
      rw [Int.emod_eq_of_lt (by unfold IntTy.maxVal at h; linarith)
        (by linarith)]
      ring
    rw [this] at h2
    linarith

theorem IntTy.maxVal_le_two_pow (t : IntTy) : t.maxVal ≤ 2 ^ 64 - 1 := by
  have hc := t.card_eq_two_mul
  have h1 : (2 : Int) ^ t.bits ≤ 2 ^ 64 :=
    pow_le_pow_right (by norm_num) t.bits_le
  have hp : (0 : Int) < 2 ^ (t.bits - 1) := pow_pos (by norm_num) _
  unfold IntTy.maxVal IntTy.minVal
  unfold IntTy.card at h1 ⊢
  split
  · linarith
  · linarith

theorem int64T_minVal : int64T.minVal = -(2 ^ 63) := by
  norm_num [int64T, IntTy.minVal]

theorem int64T_maxVal : int64T.maxVal = 2 ^ 63 - 1 := by
  norm_num [int64T, IntTy.maxVal, IntTy.minVal, IntTy.card]

theorem goInt_eq_self {x : Int} (h1 : -(2 ^ 63) ≤ x) (h2 : x ≤ 2 ^ 63 - 1) :
    goInt x = x :=
  IntTy.wrap_eq_self (by rw [int64T_minVal]; exact h1) (by rw [int64T_maxVal]; exact h2)

/-- If `0 ≤ x < n` and `x` fits in 64 unsigned bits, then the conversion
`int(x)` is also `< n`: either the value is preserved, or it wraps to a
negative number. -/
theorem goInt_lt_of_lt {x : Int} {n : Nat} (h0 : 0 ≤ x) (hx : x ≤ 2 ^ 64 - 1)
    (h : x < (n : Int)) : goInt x < (n : Int) := by
  rcases le_or_lt x (2 ^ 63 - 1) with hle | hgt
  · rw [goInt_eq_self (by linarith) hle]; exact h
  · have : goInt x = x - 2 ^ 64 := by
      unfold goInt IntTy.wrap
      rw [int64T_minVal]
      have hc : int64T.card = 2 ^ 64 := by norm_num [int64T, IntTy.card]
      rw [hc]
      have he : x - -(2 ^ 63) = (x - -(2 ^ 63) - 2 ^ 64) + 2 ^ 64 * 1 := by ring
      rw [he, Int.add_mul_emod_self_left]
      rw [Int.emod_eq_of_lt (by linarith) (by linarith)]
      ring
    rw [this]
    have : (0 : Int) < n := lt_of_le_of_lt h0 h
    linarith

/-! ## Facts about the `lowestKey` computation -/

theorem lowestStep_false (a : Int) (e : Int × String) :
    lowestStep (a, false) e = if e.1 < a then (e.1, false) else (a, false) := by
  simp [lowestStep]

theorem lowestFold_fst_mem : ∀ (es : List (Int × String)) (a : Int),
    (es.foldl lowestStep (a, false)).1 = a ∨
      (es.foldl lowestStep (a, false)).1 ∈ es.map Prod.fst := by
  intro es
  induction es with
  | nil => intro a; left; rfl
  | cons e rest ih =>
    intro a
    simp only [List.foldl_cons, List.map_cons, lowestStep_false]
    split
    · rcases ih e.1 with h | h
      · right; rw [h]; exact List.mem_cons_self _ _
      · right; exact List.mem_cons_of_mem _ h
    · rcases ih a with h | h
      · left; exact h
      · right; exact List.mem_cons_of_mem _ h

theorem lowestFold_le : ∀ (es : List (Int × String)) (a : Int),
    (es.foldl lowestStep (a, false)).1 ≤ a ∧
      ∀ e ∈ es, (es.foldl lowestStep (a, false)).1 ≤ e.1 := by
  intro es
  induction es with
  | nil => intro a; exact ⟨le_refl a, fun e he => absurd he (List.not_mem_nil e)⟩
  | cons e rest ih =>
    intro a
    simp only [List.foldl_cons, lowestStep_false]
    split
    · rename_i hlt
      obtain ⟨ih1, ih2⟩ := ih e.1
      refine ⟨le_trans ih1 (le_of_lt hlt), ?_⟩
      intro x hx
      rcases List.mem_cons.mp hx with h | h
      · rw [h]; exact ih1
      · exact ih2 x h
    · rename_i hge
      push_neg at hge
      obtain ⟨ih1, ih2⟩ := ih a
      refine ⟨ih1, ?_⟩
      intro x hx
      rcases List.mem_cons.mp hx with h | h
      · rw [h]; exact le_trans ih1 hge
      · exact ih2 x h

theorem computeLowest_cons (e : Int × String) (rest : List (Int × String)) :
    computeLowest (e :: rest) = (rest.foldl lowestStep (e.1, false)).1 := by
  simp [computeLowest, lowestStep]

theorem computeLowest_mem {es : List (Int × String)} (h : es ≠ []) :
    computeLowest es ∈ es.map Prod.fst := by
  match es with
  | e :: rest =>
    rw [computeLowest_cons]
    rcases lowestFold_fst_mem rest e.1 with h2 | h2
    · rw [h2]; exact List.mem_cons_self _ _
    · exact List.mem_cons_of_mem _ h2

theorem computeLowest_le {es : List (Int × String)} :
    ∀ e ∈ es, computeLowest es ≤ e.1 := by
  match es with
  | [] => exact fun e he => absurd he (List.not_mem_nil e)
  | e :: rest =>
    rw [computeLowest_cons]
    intro x hx
    obtain ⟨h1, h2⟩ := lowestFold_le rest e.1
    rcases List.mem_cons.mp hx with h | h
    · rw [h]; exact h1
    · exact h2 x h

theorem computeLowest_canonical (t : IntTy) {es : List (Int × String)}
    (hcanon : ∀ e ∈ es, t.wrap e.1 = e.1) :
    t.wrap (computeLowest es) = computeLowest es := by
  match es with
  | [] =>
    show t.wrap 0 = 0
    exact IntTy.wrap_eq_self t.minVal_nonpos t.maxVal_nonneg
  | e :: rest =>
    have hm := computeLowest_mem (show e :: rest ≠ [] by simp)
    rw [List.mem_map] at hm
    obtain ⟨x, hx, hfst⟩ := hm
    rw [← hfst]
    exact hcanon x hx

/-! ## Facts about the construction loop of `NewMap` -/

theorem newMapLoop_length (t : IntTy) (size : Nat) (lo : Int) :
    ∀ (es : List (Int × String)) (names out : List String),
    newMapLoop t size lo es names = .ok out → out.length = names.length := by
  intro es
  induction es with
  | nil =>
    intro names out h
    simp only [newMapLoop] at h
    cases h
    rfl
  | cons e rest ih =>
    intro names out h
    obtain ⟨key, nm⟩ := e
    simp only [newMapLoop] at h
    split at h
    · exact Except.noConfusion h
    · split at h
      · exact Except.noConfusion h
      · split at h
        · exact Except.noConfusion h
        · have := ih _ _ h
          rwa [List.length_set] at this

theorem newMapLoop_ok_mem (t : IntTy) (size : Nat) (lo : Int) :
    ∀ (es : List (Int × String)) (names out : List String),
    newMapLoop t size lo es names = .ok out →
    ∀ e ∈ es, goInt (t.wrap (e.1 - lo)) < (size : Int) ∧
      0 ≤ t.wrap (e.1 - lo) ∧ t.wrap (e.1 - lo) < (names.length : Int) := by
  intro es
  induction es with
  | nil => intro names out _ e he; exact absurd he (List.not_mem_nil e)
  | cons e0 rest ih =>
    intro names out h e he
    obtain ⟨key, nm⟩ := e0
    simp only [newMapLoop] at h
    split at h
    · exact Except.noConfusion h
    · split at h
      · exact Except.noConfusion h
      · split at h
        · exact Except.noConfusion h
        · rename_i h1 h2 h3
          push_neg at h1 h3
          rcases List.mem_cons.mp he with heq | hmem
          · rw [heq]
            exact ⟨h1, h3.1, h3.2⟩
          · have := ih _ _ h e hmem
            rwa [List.length_set] at this

theorem newMapLoop_append (t : IntTy) (size : Nat) (lo : Int)
    (a b : List (Int × String)) :
    ∀ (names : List String),
    newMapLoop t size lo (a ++ b) names =
      match newMapLoop t size lo a names with
      | .ok ns => newMapLoop t size lo b ns
      | .error p => .error p := by
  induction a with
  | nil => intro names; simp [newMapLoop]
  | cons e rest ih =>
    intro names
    obtain ⟨key, nm⟩ := e
    simp only [List.cons_append, newMapLoop]
    split
    · rfl
    · split
      · rfl
      · split
        · rfl
        · exact ih _

/-- If the backing array holds the name `nm` at a position `i` that no
remaining entry writes to, and some remaining entry carries the name `nm`,
the loop panics (with one of its three panics). -/
theorem newMapLoop_error_of_name_at (t : IntTy) (size : Nat) (lo : Int) :
    ∀ (es : List (Int × String)) (names : List String) (i : Nat) (nm : String)
      (k2 : Int),
    names[i]? = some nm → (k2, nm) ∈ es →
    (∀ e ∈ es, t.wrap (e.1 - lo) ≠ (i : Int)) →
    ∃ p, newMapLoop t size lo es names = .error p := by
  intro es
  induction es with
  | nil =>
    intro names i nm k2 _ hmem _
    exact absurd hmem (List.not_mem_nil _)
  | cons e0 rest ih =>
    intro names i nm k2 hat hmem hne
    obtain ⟨key, nm0⟩ := e0
    have hnm_mem : nm ∈ names := by
      obtain ⟨hi, he⟩ := List.getElem?_eq_some.mp hat
      exact he ▸ names.getElem_mem hi
    simp only [newMapLoop]
    split
    · exact ⟨_, rfl⟩
    · split
      · exact ⟨_, rfl⟩
      · split
        · exact ⟨_, rfl⟩
        · rename_i hdup hbounds
          push_neg at hbounds
          have hmem2 : (k2, nm) ∈ rest := by
            rcases List.mem_cons.mp hmem with heq | h
            · exfalso
              have : nm0 = nm := congrArg Prod.snd heq.symm
              exact hdup (this ▸ hnm_mem)
            · exact h
          have hidx0 : (0 : Int) ≤ t.wrap (key - lo) := hbounds.1
          have hidxne : t.wrap (key - lo) ≠ (i : Int) :=
            hne (key, nm0) (List.mem_cons_self _ _)
          have hpos : (t.wrap (key - lo)).toNat ≠ i := by omega
          have hat2 : (names.set (t.wrap (key - lo)).toNat nm0)[i]? = some nm := by
            rw [List.getElem?_set_ne hpos]
            exact hat
          exact ih _ i nm k2 hat2 hmem2
            (fun e he => hne e (List.mem_cons_of_mem _ he))

/-- Strengthening of `newMapLoop_error_of_name_at` for the empty name:
when every remaining entry passes the contiguity and bounds checks, the
loop's failure is specifically the duplicate-name panic. -/
theorem newMapLoop_error_dup (t : IntTy) (size : Nat) (lo : Int) :
    ∀ (es : List (Int × String)) (names : List String) (i : Nat) (k0 : Int),
    names[i]? = some "" → (k0, "") ∈ es →
    (∀ e ∈ es, goInt (t.wrap (e.1 - lo)) < (size : Int)) →
    (∀ e ∈ es, e.2 ≠ "" → 0 ≤ t.wrap (e.1 - lo) ∧
      t.wrap (e.1 - lo) < (names.length : Int) ∧ t.wrap (e.1 - lo) ≠ (i : Int)) →
    ∃ nm, newMapLoop t size lo es names = .error (.duplicateName nm) := by
  intro es
  induction es with
  | nil =>
    intro names i k0 _ hmem _ _
    exact absurd hmem (List.not_mem_nil _)
  | cons e0 rest ih =>
    intro names i k0 hat hmem hcont hbound
    obtain ⟨key, nm0⟩ := e0
    have hempty_mem : "" ∈ names := by
      obtain ⟨hi, he⟩ := List.getElem?_eq_some.mp hat
      exact he ▸ names.getElem_mem hi
    simp only [newMapLoop]
    split
    · rename_i hc
      exact absurd (hcont (key, nm0) (List.mem_cons_self _ _)) (not_lt.mpr hc)
    · split
      · exact ⟨nm0, rfl⟩
      · rename_i hdup
        have hnm0 : nm0 ≠ "" := fun h => hdup (h ▸ hempty_mem)
        have hb := hbound (key, nm0) (List.mem_cons_self _ _) hnm0
        split
        · rename_i hoor
          exfalso
          rcases hoor with h | h
          · exact absurd hb.1 (not_le.mpr h)
          · exact absurd hb.2.1 (not_lt.mpr h)
        · have hmem2 : (k0, "") ∈ rest := by
            rcases List.mem_cons.mp hmem with heq | h
            · exact absurd (congrArg Prod.snd heq.symm) hnm0
            · exact h
          have hpos : (t.wrap (key - lo)).toNat ≠ i := by
            have h1 : (0 : Int) ≤ t.wrap (key - lo) := hb.1
            have h2 : t.wrap (key - lo) ≠ (i : Int) := hb.2.2
            omega
          have hat2 : (names.set (t.wrap (key - lo)).toNat nm0)[i]? = some "" := by
            rw [List.getElem?_set_ne hpos]
            exact hat
          refine ih _ i k0 hat2 hmem2
            (fun e he => hcont e (List.mem_cons_of_mem _ he)) ?_
          intro e he hne
          have := hbound e (List.mem_cons_of_mem _ he) hne
          rw [List.length_set]
          exact this

/-- Unpacking a successful `NewMap`. -/
theorem NewMap_ok_elim {t : IntTy} {es : List (Int × String)} {m : EnumMap}
    (h : NewMap t es = .ok m) :
    m.lowestKey = computeLowest es ∧ m.names.length = es.length ∧
      newMapLoop t es.length (computeLowest es) es
        (List.replicate es.length "") = .ok m.names := by
  unfold NewMap at h
  cases hh : newMapLoop t es.length (computeLowest es) es
      (List.replicate es.length "") with
  | error p => rw [hh] at h; exact Except.noConfusion h
  | ok ns =>
    rw [hh] at h
    have hm : m = ⟨ns, computeLowest es⟩ := by
      have h2 := h.symm
      simpa [Except.map] using h2
    subst hm
    refine ⟨rfl, ?_, hh ▸ rfl⟩
    have := newMapLoop_length t es.length (computeLowest es) es _ _ hh
    simpa using this

/-- In a table whose keys are pairwise distinct, two entries with the same
key are the same entry. -/
theorem mem_eq_of_nodup_keys :
    ∀ {es : List (Int × String)}, (es.map Prod.fst).Nodup →
    ∀ {a b : Int × String}, a ∈ es → b ∈ es → a.1 = b.1 → a = b := by
  intro es
  induction es with
  | nil => intro _ a b ha; exact absurd ha (List.not_mem_nil a)
  | cons e rest ih =>
    intro hnodup a b ha hb hab
    rw [List.map_cons, List.nodup_cons] at hnodup
    rcases List.mem_cons.mp ha with ha1 | ha1 <;>
      rcases List.mem_cons.mp hb with hb1 | hb1
    · rw [ha1, hb1]
    · exfalso
      apply hnodup.1
      rw [ha1] at hab
      rw [hab]
      exact List.mem_map_of_mem Prod.fst hb1
    · exfalso
      apply hnodup.1
      rw [hb1] at hab
      rw [← hab]
      exact List.mem_map_of_mem Prod.fst ha1
    · exact ih hnodup.2 ha1 hb1 hab

/-! ## Pigeonhole facts for contiguity -/

/-- `n` distinct integers lying inside `[lo, lo+n)` are exactly that
range. -/
theorem nodup_subset_range_eq {l : List Int} {lo : Int} {n : Nat}
    (hnodup : l.Nodup) (hlen : l.length = n)
    (hsub : ∀ x ∈ l, lo ≤ x ∧ x < lo + (n : Int)) :
    ∀ x, x ∈ l ↔ (lo ≤ x ∧ x < lo + (n : Int)) := by
  have h1 : l.toFinset ⊆ Finset.Ico lo (lo + (n : Int)) := by
    intro x hx
    rw [List.mem_toFinset] at hx
    rw [Finset.mem_Ico]
    exact hsub x hx
  have hcard : (Finset.Ico lo (lo + (n : Int))).card = n := by
    rw [Int.card_Ico]
    simp
  have h2 : l.toFinset = Finset.Ico lo (lo + (n : Int)) := by
    apply Finset.eq_of_subset_of_card_le h1
    rw [hcard, List.toFinset_card_of_nodup hnodup, hlen]
  intro x
  rw [← List.mem_toFinset, h2, Finset.mem_Ico]

/-- `n` distinct integers containing all of `[lo, lo+n)` are exactly that
range. -/
theorem nodup_superset_range_eq {l : List Int} {lo : Int} {n : Nat}
    (hnodup : l.Nodup) (hlen : l.length = n)
    (hsup : ∀ i : Nat, i < n → lo + (i : Int) ∈ l) :
    ∀ x, x ∈ l ↔ (lo ≤ x ∧ x < lo + (n : Int)) := by
  have h1 : Finset.Ico lo (lo + (n : Int)) ⊆ l.toFinset := by
    intro x hx
    rw [Finset.mem_Ico] at hx
    rw [List.mem_toFinset]
    have hi := hsup (x - lo).toNat (by omega)
    have he : lo + ((x - lo).toNat : Int) = x := by omega
    rwa [he] at hi
  have hcard : (Finset.Ico lo (lo + (n : Int))).card = n := by
    rw [Int.card_Ico]
    simp
  have h2 : Finset.Ico lo (lo + (n : Int)) = l.toFinset := by
    apply Finset.eq_of_subset_of_card_le h1
    rw [hcard]
    calc l.toFinset.card ≤ l.length := List.toFinset_card_le l
      _ = n := hlen
  intro x
  rw [← List.mem_toFinset, ← h2, Finset.mem_Ico]

/-! ## Facts about the reverse-lookup scan -/

theorem getKeyLoop_not_mem (t : IntTy) (lo : Int) (name : String) :
    ∀ (i : Nat) (l : List String), name ∉ l →
    getKeyLoop t lo name i l = (0, false) := by
  intro i l
  induction l generalizing i with
  | nil => intro _; rfl
  | cons c rest ih =>
    intro h
    rw [List.mem_cons] at h
    push_neg at h
    simp only [getKeyLoop]
    rw [if_neg (fun hc => h.1 hc.symm)]
    exact ih _ h.2

theorem GetName_snd (t : IntTy) (m : EnumMap) (key : Int) :
    (GetName t m key).2 = ContainsKey t m key := by
  unfold GetName
  split
  · simp_all
  · simp_all

/-! ## The claims -/

/-- Claim C1 (code bug), evaluated at the failing input: the `uint8` table
`{255: "A"}` constructs successfully, and `GetKey` still recovers the key
from the name, but `ContainsKey 255` is `false` — `Enum(len(names)) +
lowestKey` wraps to `0` — so `GetName 255` reports not-found even though
key `255` is registered with name `"A"`.  This refutes the claimed
round-trip `GetName(k) = (n, true)` for maps whose key range ends at the
top of the key type's representable range. -/
theorem getName_misses_at_top_of_range :
    NewMap uint8T topTableU8 = .ok topMapU8 ∧
      GetKey uint8T topMapU8 "A" = (255, true) ∧
      ContainsKey uint8T topMapU8 255 = false ∧
      GetName uint8T topMapU8 255 = ("", false) :=
  ⟨rfl, by decide, by decide, by decide⟩

/-- Claim C2 (code bug), evaluated at the failing input: on the successfully
constructed `uint8` map `{254: "A", 255: "B"}`, `MarshalToNameJSON` of the
registered key `255` returns an error instead of the JSON string
`"\"B\""`, because the wrapped upper bound in `ContainsKey` makes
`GetName 255` fail; so the encode/decode pair does not round-trip for all
registered entries. -/
theorem marshal_fails_at_top_of_range :
    NewMap uint8T topTable2U8 = .ok topMap2U8 ∧
      MarshalToNameJSON uint8T topMap2U8 255 =
        .error "invalid value '255': key not found in enum name map" :=
  ⟨rfl, rfl⟩

/-- Claim C3: on every successfully constructed map, every key of the key
type lying (as a mathematical integer) below `lowestKey` or at or above
`lowestKey + size` has `ContainsKey = false` and `GetName = ("", false)`,
and `ContainsKey` agrees with the success flag of `GetName`. -/
theorem getName_out_of_range (t : IntTy) (es : List (Int × String))
    (m : EnumMap) (hcanon : ∀ e ∈ es, t.wrap e.1 = e.1)
    (hok : NewMap t es = .ok m) (k : Int) (hk : t.wrap k = k)
    (hout : k < m.lowestKey ∨ m.lowestKey + (m.names.length : Int) ≤ k) :
    ContainsKey t m k = false ∧ GetName t m k = ("", false) ∧
      (ContainsKey t m k = true ↔ (GetName t m k).2 = true) := by
  obtain ⟨hlow, hlen, hloop⟩ := NewMap_ok_elim hok
  have hlowc : t.wrap m.lowestKey = m.lowestKey := by
    rw [hlow]
    exact computeLowest_canonical t hcanon
  have hCK : ContainsKey t m k = false := by
    rcases hout with h | h
    · unfold ContainsKey
      rw [decide_eq_false (not_le.mpr h), Bool.false_and]
    · have hkmax := t.le_maxVal_of_wrap_eq hk
      have hmin := t.minVal_le_of_wrap_eq hlowc
      have hlen0 : (0 : Int) ≤ (m.names.length : Int) := Int.ofNat_nonneg _
      have hup : t.wrap (t.ofInt (m.names.length : Int) + m.lowestKey)
          = m.lowestKey + (m.names.length : Int) := by
        unfold IntTy.ofInt
        rw [IntTy.wrap_add_left]
        rw [t.wrap_eq_self (by linarith) (by linarith), add_comm]
      unfold ContainsKey
      rw [hup, decide_eq_false (not_lt.mpr h), Bool.and_false]
  refine ⟨hCK, ?_, ?_⟩
  · unfold GetName
    rw [hCK]
    simp
  · rw [GetName_snd]

/-- Witness for `getName_out_of_range` at the `uint8` map `{3: "A"}` and
the out-of-range key `7`. -/
theorem getName_out_of_range_witness :
    ContainsKey uint8T ⟨["A"], 3⟩ 7 = false ∧
      GetName uint8T ⟨["A"], 3⟩ 7 = ("", false) ∧
      (ContainsKey uint8T ⟨["A"], 3⟩ 7 = true ↔
        (GetName uint8T ⟨["A"], 3⟩ 7).2 = true) :=
  getName_out_of_range uint8T [(3, "A")] ⟨["A"], 3⟩ (by decide) rfl 7 (by decide)
    (Or.inr (by decide))

/-- Claim C4: a non-empty table whose key set is not exactly
`{lowestKey, ..., lowestKey + n - 1}` makes `NewMap` panic, for every
iteration order; it never returns a map. -/
theorem newMap_fails_on_noncontiguous (t : IntTy) (es : List (Int × String))
    (hne : es ≠ []) (hcanon : ∀ e ∈ es, t.wrap e.1 = e.1)
    (hnodup : (es.map Prod.fst).Nodup) (hnc : ¬ ContiguousKeys es) :
    (NewMap t es).isOk = false := by
  rcases hok : NewMap t es with p | m
  · rfl
  · exfalso
    apply hnc
    obtain ⟨hlow, hlen, hloop⟩ := NewMap_ok_elim hok
    have hfacts := newMapLoop_ok_mem t es.length (computeLowest es) es _ _ hloop
    have hlowc : t.wrap (computeLowest es) = computeLowest es :=
      computeLowest_canonical t hcanon
    have hsub : ∀ x ∈ es.map Prod.fst,
        computeLowest es ≤ x ∧ x < computeLowest es + (es.length : Int) := by
      intro x hx
      rw [List.mem_map] at hx
      obtain ⟨e, he, hex⟩ := hx
      have hle : computeLowest es ≤ e.1 := computeLowest_le e he
      have hcan := hcanon e he
      obtain ⟨_, hge, hlt⟩ := hfacts e he
      have hexact : t.wrap (e.1 - computeLowest es) = e.1 - computeLowest es :=
        t.wrap_sub_eq_of_nonneg hlowc hcan hle hge
      rw [hexact, List.length_replicate] at hlt
      rw [← hex]
      exact ⟨hle, by linarith⟩
    have hiff := nodup_subset_range_eq hnodup
      (show (es.map Prod.fst).length = es.length by simp) hsub
    intro i hi
    exact (hiff _).mpr ⟨by omega, by omega⟩

/-- Witness for `newMap_fails_on_noncontiguous` at the gapped `uint8`
table `{1: "A", 3: "B"}`. -/
theorem newMap_fails_on_noncontiguous_witness :
    (NewMap uint8T [(1, "A"), (3, "B")]).isOk = false :=
  newMap_fails_on_noncontiguous uint8T [(1, "A"), (3, "B")] (by decide)
    (by decide) (by decide) (by decide)

/-- Helper for the duplicate-name claim: if an entry `(ka, nm)` is
followed, later in the iteration order, by another entry `(kb, nm)` with
the same name, the construction loop cannot succeed: when `(kb, nm)` is
processed, `nm` already sits in the backing array (written by `(ka, nm)`
and not overwritten, keys being distinct), so a panic fires. -/
theorem newMap_aux_dup (t : IntTy) (pre post : List (Int × String))
    (ka kb : Int) (nm : String) (es : List (Int × String))
    (hes : es = pre ++ (ka, nm) :: post) (hb : (kb, nm) ∈ post)
    (hcanon : ∀ e ∈ es, t.wrap e.1 = e.1)
    (hnodup : (es.map Prod.fst).Nodup) :
    ∀ out, newMapLoop t es.length (computeLowest es) es
      (List.replicate es.length "") = .ok out → False := by
  intro out hok
  subst hes
  have hka_not_post : ka ∉ post.map Prod.fst := by
    rw [List.map_append, List.map_cons] at hnodup
    have h2 := hnodup.of_append_right
    exact (List.nodup_cons.mp h2).1
  have hcanon_post : ∀ e ∈ post, t.wrap e.1 = e.1 := fun e he =>
    hcanon e (List.mem_append_right _ (List.mem_cons_of_mem _ he))
  have hka_canon : t.wrap ka = ka :=
    hcanon (ka, nm) (List.mem_append_right _ (List.mem_cons_self _ _))
  rw [newMapLoop_append] at hok
  generalize (pre ++ (ka, nm) :: post).length = N at hok
  generalize computeLowest (pre ++ (ka, nm) :: post) = lo at hok
  cases hpre : newMapLoop t N lo pre (List.replicate N "") with
  | error p => rw [hpre] at hok; exact Except.noConfusion hok
  | ok ns1 =>
    rw [hpre] at hok
    simp only [newMapLoop] at hok
    split at hok
    · exact Except.noConfusion hok
    · split at hok
      · exact Except.noConfusion hok
      · split at hok
        · exact Except.noConfusion hok
        · rename_i hc1 hdup hbounds
          push_neg at hbounds
          have hb0 : (0 : Int) ≤ t.wrap (ka - lo) := hbounds.1
          have hb1 : t.wrap (ka - lo) < (ns1.length : Int) := hbounds.2
          have htoNat : (t.wrap (ka - lo)).toNat < ns1.length := by omega
          have hat : (ns1.set (t.wrap (ka - lo)).toNat nm)[
              (t.wrap (ka - lo)).toNat]? = some nm :=
            List.getElem?_set_self htoNat
          have hside : ∀ e ∈ post,
              t.wrap (e.1 - lo) ≠ (((t.wrap (ka - lo)).toNat : Int)) := by
            intro e he hwrap
            have hcan_e := hcanon_post e he
            have heka : e.1 = ka := by
              apply t.wrap_inj hcan_e hka_canon
              rw [hwrap, Int.toNat_of_nonneg hb0]
            exact hka_not_post (heka ▸ List.mem_map_of_mem Prod.fst he)
          obtain ⟨p, herr⟩ := newMapLoop_error_of_name_at t N lo post _ _ nm kb
            hat hb hside
          rw [herr] at hok
          exact Except.noConfusion hok

/-- Claim C5: a table containing two distinct keys mapped to the same name
makes `NewMap` panic, for every iteration order; it never returns a map. -/
theorem newMap_fails_on_duplicate_name (t : IntTy) (es : List (Int × String))
    (hcanon : ∀ e ∈ es, t.wrap e.1 = e.1)
    (hnodup : (es.map Prod.fst).Nodup) (k1 k2 : Int) (nm : String)
    (h1 : (k1, nm) ∈ es) (h2 : (k2, nm) ∈ es) (hne : k1 ≠ k2) :
    (NewMap t es).isOk = false := by
  rcases hok : NewMap t es with p | m
  · rfl
  · exfalso
    obtain ⟨hlow, hlen, hloop⟩ := NewMap_ok_elim hok
    obtain ⟨s, u, hsu⟩ := List.append_of_mem h1
    have h2' := h2
    rw [hsu] at h2'
    rcases List.mem_append.mp h2' with hs | hcons
    · obtain ⟨s2, u2, hs2⟩ := List.append_of_mem hs
      have hes2 : es = s2 ++ (k2, nm) :: (u2 ++ (k1, nm) :: u) := by
        rw [hsu, hs2]
        simp
      exact newMap_aux_dup t s2 (u2 ++ (k1, nm) :: u) k2 k1 nm es hes2
        (by simp) hcanon hnodup m.names hloop
    · rcases List.mem_cons.mp hcons with heq | hu
      · exact hne (congrArg Prod.fst heq).symm
      · exact newMap_aux_dup t s u k1 k2 nm es hsu hu hcanon hnodup
          m.names hloop

/-- Witness for `newMap_fails_on_duplicate_name` at the `uint8` table
`{1: "A", 2: "A"}`. -/
theorem newMap_fails_on_duplicate_name_witness :
    (NewMap uint8T [(1, "A"), (2, "A")]).isOk = false :=
  newMap_fails_on_duplicate_name uint8T [(1, "A"), (2, "A")] (by decide)
    (by decide) 1 2 "A" (by decide) (by decide) (by decide)

/-- Counterexample for claim C9: the non-empty table `{2: "", 0: "A"}` maps a
key to the empty string, yet (under the iteration order that visits key
`2` first) `NewMap` aborts with the *non-contiguity* panic, not the
duplicate-name panic the claim promises. -/
theorem newMap_empty_name_counterexample :
    NewMap uint8T [(2, ""), (0, "A")] = .error .nonContiguous ∧
      ¬ ∃ nm, NewMap uint8T [(2, ""), (0, "A")] =
        .error (.duplicateName nm) := by
  refine ⟨rfl, ?_⟩
  rintro ⟨nm, h⟩
  rw [show NewMap uint8T [(2, ""), (0, "A")] = .error .nonContiguous from rfl] at h
  exact NewMapPanic.noConfusion (Except.error.inj h)

/-- Claim C9 as amended: for every non-empty table whose keys form a
contiguous range of at most `maxVal + 1` entries (so that index
arithmetic stays exact, i.e. any table that could otherwise construct),
mapping some key to the empty string makes `NewMap` abort with the
duplicate-name panic in every iteration order: the backing array is
pre-filled with empty strings, so the duplicate scan finds `""` before
its slot is written. -/
theorem newMap_empty_name_dup_panic (t : IntTy) (es : List (Int × String))
    (hne : es ≠ []) (hcanon : ∀ e ∈ es, t.wrap e.1 = e.1)
    (hnodup : (es.map Prod.fst).Nodup) (hcontig : ContiguousKeys es)
    (hsize : (es.length : Int) ≤ t.maxVal + 1) (k0 : Int)
    (h0 : (k0, "") ∈ es) :
    ∃ nm, NewMap t es = .error (.duplicateName nm) := by
  have hlowc := computeLowest_canonical t hcanon
  have hiff := nodup_superset_range_eq hnodup
    (show (es.map Prod.fst).length = es.length by simp) hcontig
  have hbounds : ∀ e ∈ es, computeLowest es ≤ e.1 ∧
      e.1 < computeLowest es + (es.length : Int) := by
    intro e he
    exact (hiff e.1).mp (List.mem_map_of_mem Prod.fst he)
  have hexact : ∀ e ∈ es,
      t.wrap (e.1 - computeLowest es) = e.1 - computeLowest es := by
    intro e he
    obtain ⟨hb1, hb2⟩ := hbounds e he
    exact t.wrap_sub_eq_of_le hlowc (hcanon e he) hb1 (by linarith)
  obtain ⟨hk1, hk2⟩ := hbounds _ h0
  have hrep : (List.replicate es.length
      "")[(k0 - computeLowest es).toNat]? = some "" := by
    rw [List.getElem?_replicate, if_pos (by omega)]
  have hcont : ∀ e ∈ es,
      goInt (t.wrap (e.1 - computeLowest es)) < (es.length : Int) := by
    intro e he
    obtain ⟨hb1, hb2⟩ := hbounds e he
    rw [hexact e he]
    have hm := t.maxVal_le_two_pow
    exact goInt_lt_of_lt (by linarith) (by linarith) (by linarith)
  have hbound3 : ∀ e ∈ es, e.2 ≠ "" →
      0 ≤ t.wrap (e.1 - computeLowest es) ∧
      t.wrap (e.1 - computeLowest es) <
        ((List.replicate es.length "").length : Int) ∧
      t.wrap (e.1 - computeLowest es) ≠
        ((k0 - computeLowest es).toNat : Int) := by
    intro e he hne2
    rw [hexact e he]
    obtain ⟨hb1, hb2⟩ := hbounds e he
    refine ⟨by linarith, ?_, ?_⟩
    · rw [List.length_replicate]
      linarith
    · rw [Int.toNat_of_nonneg (by linarith)]
      intro heq
      have he1 : e.1 = k0 := by linarith
      have he2 : e = (k0, "") := mem_eq_of_nodup_keys hnodup he h0 he1
      exact hne2 (congrArg Prod.snd he2)
  obtain ⟨nm, hloop⟩ := newMapLoop_error_dup t es.length (computeLowest es)
    es (List.replicate es.length "") (k0 - computeLowest es).toNat k0 hrep
    h0 hcont hbound3
  refine ⟨nm, ?_⟩
  unfold NewMap
  rw [hloop]
  rfl

/-- Witness for `newMap_empty_name_dup_panic` at the contiguous `uint8`
table `{1: "", 2: "B"}`. -/
theorem newMap_empty_name_dup_panic_witness :
    ∃ nm, NewMap uint8T [(1, ""), (2, "B")] =
      .error (.duplicateName nm) :=
  newMap_empty_name_dup_panic uint8T [(1, ""), (2, "B")] (by decide)
    (by decide) (by decide) (by decide) (by decide) 1 (by decide)

/-- Counterexample for claim C6: the map built from
`{1: "FIRST", 2: "SECOND", 3: "THIRD"}` renders with the prefix
`"enumnames.Map"`, not `"EnumNameMap"` as the claim states. -/
theorem mapString_prefix_counterexample :
    NewMap uint8T displayTable = .ok displayMap ∧
      MapString displayMap ≠ "EnumNameMap[1:FIRST 2:SECOND 3:THIRD]" :=
  ⟨rfl, by decide⟩

/-- Claim C6 as amended: for the map constructed from
`{1: "FIRST", 2: "SECOND", 3: "THIRD"}` (under any iteration order of the
table), `String` returns exactly `"enumnames.Map[1:FIRST 2:SECOND
3:THIRD]"`: a bracketed, space-separated list of `key:name` pairs in
ascending key order with the prefix `"enumnames.Map"`. -/
theorem mapString_display_format (es : List (Int × String))
    (hperm : es.Perm displayTable) :
    ∃ m, NewMap uint8T es = .ok m ∧
      MapString m = "enumnames.Map[1:FIRST 2:SECOND 3:THIRD]" := by
  have hmem : es ∈ displayTable.permutations' :=
    List.mem_permutations'.mpr hperm
  have hperms : displayTable.permutations' =
      [[(1, "FIRST"), (2, "SECOND"), (3, "THIRD")],
       [(2, "SECOND"), (1, "FIRST"), (3, "THIRD")],
       [(2, "SECOND"), (3, "THIRD"), (1, "FIRST")],
       [(1, "FIRST"), (3, "THIRD"), (2, "SECOND")],
       [(3, "THIRD"), (1, "FIRST"), (2, "SECOND")],
       [(3, "THIRD"), (2, "SECOND"), (1, "FIRST")]] := by decide
  rw [hperms] at hmem
  simp only [List.mem_cons, List.not_mem_nil, or_false] at hmem
  rcases hmem with h | h | h | h | h | h <;> subst h <;>
    exact ⟨displayMap, rfl, rfl⟩

/-- Witness for `mapString_display_format` at the ascending iteration
order. -/
theorem mapString_display_format_witness :
    ∃ m, NewMap uint8T displayTable = .ok m ∧
      MapString m = "enumnames.Map[1:FIRST 2:SECOND 3:THIRD]" :=
  mapString_display_format displayTable (List.Perm.refl _)

/-- Claim C8: the signed `int8` table `{-2: "FIRST", -1: "SECOND",
0: "THIRD"}` constructs successfully under every iteration order, and on
the resulting map `GetName (-1)` returns `("SECOND", true)`. -/
theorem newMap_negative_keys (es : List (Int × String))
    (hperm : es.Perm negTable) :
    ∃ m, NewMap int8T es = .ok m ∧
      GetName int8T m (-1) = ("SECOND", true) := by
  have hmem : es ∈ negTable.permutations' := List.mem_permutations'.mpr hperm
  have hperms : negTable.permutations' =
      [[(-2, "FIRST"), (-1, "SECOND"), (0, "THIRD")],
       [(-1, "SECOND"), (-2, "FIRST"), (0, "THIRD")],
       [(-1, "SECOND"), (0, "THIRD"), (-2, "FIRST")],
       [(-2, "FIRST"), (0, "THIRD"), (-1, "SECOND")],
       [(0, "THIRD"), (-2, "FIRST"), (-1, "SECOND")],
       [(0, "THIRD"), (-1, "SECOND"), (-2, "FIRST")]] := by decide
  rw [hperms] at hmem
  simp only [List.mem_cons, List.not_mem_nil, or_false] at hmem
  rcases hmem with h | h | h | h | h | h <;> subst h <;>
    exact ⟨negMap, rfl, by decide⟩

/-- Witness for `newMap_negative_keys` at the ascending iteration
order. -/
theorem newMap_negative_keys_witness :
    ∃ m, NewMap int8T negTable = .ok m ∧
      GetName int8T m (-1) = ("SECOND", true) :=
  newMap_negative_keys negTable (List.Perm.refl _)

/-! ## Substring facts for the decode error message -/

theorem string_data_append (a b : String) :
    (a ++ b).data = a.data ++ b.data := by
  cases a
  cases b
  rfl

theorem mem_goJoin_substring (sep : String) :
    ∀ (l : List String), ∀ nm ∈ l, nm.data <:+: (goJoin sep l).data := by
  intro l
  induction l with
  | nil => intro nm h; exact absurd h (List.not_mem_nil nm)
  | cons s rest ih =>
    intro nm h
    cases rest with
    | nil =>
      have : nm = s := by
        rcases List.mem_cons.mp h with h1 | h1
        · exact h1
        · exact absurd h1 (List.not_mem_nil nm)
      rw [this]
      exact List.infix_refl _
    | cons s2 rest2 =>
      show nm.data <:+: (goJoin sep (s :: s2 :: rest2)).data
      have hunfold : goJoin sep (s :: s2 :: rest2)
          = s ++ (sep ++ goJoin sep (s2 :: rest2)) := rfl
      rw [hunfold, string_data_append, string_data_append]
      rcases List.mem_cons.mp h with h1 | h1
      · rw [h1]
        exact (List.prefix_append _ _).isInfix
      · have hih := ih nm h1
        refine hih.trans ?_
        have h2 : (goJoin sep (s2 :: rest2)).data <:+
            s.data ++ (sep.data ++ (goJoin sep (s2 :: rest2)).data) := by
          rw [← List.append_assoc]
          exact List.suffix_append _ _
        exact h2.isInfix

theorem substring_embed (pre mid post nm : String)
    (h : nm.data <:+: mid.data) :
    nm.data <:+: (pre ++ mid ++ post).data := by
  obtain ⟨s, t2, hst⟩ := h
  refine ⟨pre.data ++ s, t2 ++ post.data, ?_⟩
  rw [string_data_append, string_data_append, ← hst]
  simp [List.append_assoc]

/-- Claim C7: on every successfully constructed map, decoding a valid JSON
string whose contents is not a registered name yields the unknown-name
error, and that error's message contains every registered name of the map
as a substring. -/
theorem unmarshal_error_lists_names (t : IntTy) (es : List (Int × String))
    (m : EnumMap) (hok : NewMap t es = .ok m) (nameJSON : String)
    (name : String) (hparse : decodeJSONString nameJSON = some name)
    (hnot : name ∉ m.names) (dest : Int) :
    ∃ msg, (UnmarshalFromNameJSON t m nameJSON dest).1 =
        some (.badName msg) ∧
      ∀ nm ∈ m.names, nm.data <:+: msg.data := by
  have hgk : GetKey t m name = (0, false) := by
    unfold GetKey
    exact getKeyLoop_not_mem t m.lowestKey name 0 m.names hnot
  refine ⟨"invalid value '" ++ name ++ "', expected one of: '" ++
    goJoin "', '" m.names ++ "'", ?_, ?_⟩
  · unfold UnmarshalFromNameJSON
    rw [hparse]
    simp [hgk]
  · intro nm hnm
    exact substring_embed ("invalid value '" ++ name ++ "', expected one of: '")
      (goJoin "', '" m.names) "'" nm (mem_goJoin_substring _ m.names nm hnm)

/-- Witness for `unmarshal_error_lists_names` on the map `{1: "A"}` and
the unregistered name `"B"`. -/
theorem unmarshal_error_lists_names_witness :
    ∃ msg, (UnmarshalFromNameJSON uint8T ⟨["A"], 1⟩ "\"B\"" 7).1 =
        some (.badName msg) ∧
      ∀ nm ∈ (⟨["A"], 1⟩ : EnumMap).names, nm.data <:+: msg.data :=
  unmarshal_error_lists_names uint8T [(1, "A")] ⟨["A"], 1⟩ rfl "\"B\"" "B"
    rfl (by decide) 7

/-- Claim C10: whenever `UnmarshalFromNameJSON` returns an error, a parse
failure or an unrecognized name — the destination is left unchanged; it is
written only on the success path. -/
theorem unmarshal_dest_unchanged (t : IntTy) (m : EnumMap)
    (nameJSON : String) (dest : Int)
    (herr : (UnmarshalFromNameJSON t m nameJSON dest).1.isSome = true) :
    (UnmarshalFromNameJSON t m nameJSON dest).2 = dest := by
  unfold UnmarshalFromNameJSON at herr ⊢
  cases hd : decodeJSONString nameJSON with
  | none => rfl
  | some name =>
    rw [hd] at herr
    by_cases hr : (GetKey t m name).2 = true
    · simp [hr] at herr
    · simp only [Bool.not_eq_true] at hr
      simp [hr]

/-- Witness for `unmarshal_dest_unchanged` on malformed input `"oops"`
with destination `7`. -/
theorem unmarshal_dest_unchanged_witness :
    (UnmarshalFromNameJSON uint8T ⟨["A"], 1⟩ "oops" 7).2 = 7 :=
  unmarshal_dest_unchanged uint8T ⟨["A"], 1⟩ "oops" 7 rfl

end Enumnames
